import Mathlib

/-!
Verification of the work-distribution protocol of the multithreaded
midpoint-rule integrator in `src/main.cpp`.

The development shallowly embeds the program:

* the compile-time constants `N`, `BLOCK_SIZE` and `NUMBER_OF_BLOCKS`
  (main.cpp lines 18-25);
* the block-bound computation performed at the top of each worker loop
  iteration (main.cpp lines 73-86) as `startIteration`, `endIteration` and
  `blockRange`, generalized over the two constants;
* the integrand of main.cpp line 93 as an exact rational function `f`
  (the sum of rationals models the accumulation in exact arithmetic);
* the shared-state protocol of `calculateIteration` (main.cpp lines 42-136)
  as a transition system on `ProgState`: one transition per `while`-loop
  iteration of one worker, whose only shared-memory interaction is the
  single atomic `fetch_add` on `nextBlock`, plus one transition for the
  final fold of the local partial sum into the shared accumulator `pi`.
  A run is the left fold of `step` over an arbitrary schedule (a list of
  worker indices).  Because each loop iteration touches shared state in
  exactly one atomic operation, interleaving whole iterations in every
  possible order over-approximates every OS-level interleaving of the real
  threads as far as the shared counter, the dispatched blocks and the
  accumulator are concerned; the event/suspend handshake with the
  coordinator only restricts which schedules occur.
-/

/-- Total iteration count: `#define N 100000000` (main.cpp line 18). -/
def N : ℕ := 100000000

/-- Block size: `#define BLOCK_SIZE 8307040` (main.cpp line 21). -/
def BLOCK_SIZE : ℕ := 8307040

/-- The block-count macro of main.cpp line 25,
`n/b +(n % b ? 1 : 0)`, generalized over the two constants. -/
def numBlocks (n b : ℕ) : ℕ := n / b + (if n % b ≠ 0 then 1 else 0)

/-- `#define NUMBER_OF_BLOCKS N/BLOCK_SIZE +(N % BLOCK_SIZE ? 1 : 0)`
(main.cpp line 25). -/
def NUMBER_OF_BLOCKS : ℕ := numBlocks N BLOCK_SIZE

/-- Start of the range of block `k`:
`int startIteration = currentBlock * BLOCK_SIZE;` (main.cpp line 73). -/
def startIteration (n b k : ℕ) : ℕ := k * b

/-- End of the range of block `k`:
`int endIteration = (currentBlock + 1) * BLOCK_SIZE;` followed by the clamp
`if (endIteration > N) { endIteration = N; }` (main.cpp lines 78-86). -/
def endIteration (n b k : ℕ) : ℕ := if (k + 1) * b > n then n else (k + 1) * b

/-- The half-open index range swept by the inner loop
`for (int i = startIteration; i < endIteration; i++)` (main.cpp line 92). -/
def blockRange (n b k : ℕ) : Finset ℕ :=
  Finset.Ico (startIteration n b k) (endIteration n b k)

/-- The block range as the specification words it: the half-open range
from `max(0, k*B)` to `min((k+1)*B, N)`. -/
def specBlockRange (n b k : ℕ) : Finset ℕ :=
  Finset.Ico (max 0 (k * b)) (min ((k + 1) * b) n)

/-- The integrand of main.cpp line 93, `4 / (1 + pow((i + 0.5) / N, 2))`,
read in exact rational arithmetic. -/
def f (i : ℕ) : ℚ := 4 / (1 + (((i : ℚ) + 1 / 2) / (N : ℚ)) ^ 2)

/-- The partial sum contributed by block `k`: the inner loop of
main.cpp lines 92-94 accumulating `f` over the block range. -/
def blockSum (k : ℕ) : ℚ := ∑ i ∈ blockRange N BLOCK_SIZE k, f i

/-- `nextBlock.fetch_add(1, std::memory_order_relaxed)` (main.cpp line 125):
first component is the returned pre-increment value, second the new
counter contents. -/
def fetch_add (c : ℕ) : ℕ × ℕ := (c, c + 1)

/-- The array indices touched by the start-of-run resume loop
`for (int i = 0; i <= numberOfThreads; i++) ResumeThread(threadsArray[i]);`
(main.cpp lines 179-181). -/
def startResumeIndices (numberOfThreads : ℕ) : List ℕ :=
  List.range (numberOfThreads + 1)

/-- Shared and per-worker state of one run of `calculatePi` with `T` worker
threads.  `nextBlock` and `pi` are the two shared atomics (main.cpp lines
38-39); `workers w` is `some currentBlock` while worker `w` is still inside
its `while` loop and `none` once `calculateIteration` has returned;
`locals w` is the local `threadPi` of worker `w` (line 45); `claims`
records the values returned by `fetch_add` on `nextBlock`, in the order
the atomic increments happened; `computed` records the block indices
processed by executed loop bodies, in execution order; `sigs w` counts the
`SetEvent` calls of worker `w` (line 101) and `folds w` its
`pi.fetch_add` calls (line 133). -/
structure ProgState (T : ℕ) where
  nextBlock : ℕ
  pi : ℚ
  workers : Fin T → Option ℕ
  locals : Fin T → ℚ
  claims : List ℕ
  computed : List ℕ
  sigs : Fin T → ℕ
  folds : Fin T → ℕ

/-- The state just after main.cpp line 173 (`nextBlock = numberOfThreads;`)
and before any worker is resumed: worker `w` holds its pre-assigned first
block `w` (the thread argument passed at line 162), nothing has been
claimed, computed, signalled or folded, and both atomics hold their
start-of-run values. -/
def init (T : ℕ) : ProgState T where
  nextBlock := T
  pi := 0
  workers := fun w => some w.val
  locals := fun _ => 0
  claims := []
  computed := []
  sigs := fun _ => 0
  folds := fun _ => 0

/-- One scheduled turn of worker `w`, at the granularity of one `while`
iteration of `calculateIteration` (main.cpp lines 60-126): while
`currentBlock <= NUMBER_OF_BLOCKS` the body computes the block bounds, adds
the block partial sum to the local `threadPi`, signals the worker event
(`SetEvent`, line 101) and obtains the next block with the single atomic
`fetch_add` (line 125); once `currentBlock > NUMBER_OF_BLOCKS` the loop
exits and the worker folds `threadPi` into the shared `pi` (line 133) and
terminates.  Scheduling a terminated worker changes nothing. -/
def step {T : ℕ} (w : Fin T) (s : ProgState T) : ProgState T :=
  match s.workers w with
  | none => s
  | some currentBlock =>
    if currentBlock ≤ NUMBER_OF_BLOCKS then
      { s with
        computed := s.computed ++ [currentBlock]
        locals := Function.update s.locals w (s.locals w + blockSum currentBlock)
        sigs := Function.update s.sigs w (s.sigs w + 1)
        claims := s.claims ++ [(fetch_add s.nextBlock).1]
        nextBlock := (fetch_add s.nextBlock).2
        workers := Function.update s.workers w (some (fetch_add s.nextBlock).1) }
    else
      { s with
        workers := Function.update s.workers w none
        folds := Function.update s.folds w (s.folds w + 1)
        pi := s.pi + s.locals w }

/-- Run the system from `init T` under an arbitrary schedule of worker
turns. -/
def run (T : ℕ) (sched : List (Fin T)) : ProgState T :=
  sched.foldl (fun s w => step w s) (init T)

/-- `pi = pi / N;` (main.cpp line 237): the final estimate computed from
the accumulated total. -/
def finalEstimate (p : ℚ) : ℚ := p / (N : ℚ)

/-- The block index worker `w` would compute next, as a one-element
multiset, provided that index is still within the loop bound; used to
account for blocks dispensed but not yet processed. -/
def pend {T : ℕ} (s : ProgState T) (w : Fin T) : Multiset ℕ :=
  match s.workers w with
  | none => 0
  | some cb => if cb ≤ NUMBER_OF_BLOCKS then {cb} else 0

/-- 1 when worker `w` has terminated or holds a block index past
`NUMBER_OF_BLOCKS` (so its loop is about to exit), else 0. -/
def hiCnt {T : ℕ} (s : ProgState T) (w : Fin T) : ℕ :=
  match s.workers w with
  | none => 1
  | some cb => if NUMBER_OF_BLOCKS < cb then 1 else 0

/-- The pre-assigned first blocks that fall within the loop bound: the
block indices `0 .. T-1` that are at most `NUMBER_OF_BLOCKS`, as a
multiset. -/
def idsLE (T : ℕ) : Multiset ℕ :=
  ((List.range T).filter (fun v => v ≤ NUMBER_OF_BLOCKS) : Multiset ℕ)

/-- Inductive invariant of the transition system, established at `init` and
preserved by `step`. -/
structure SysInv (T : ℕ) (s : ProgState T) : Prop where
  claims_eq : s.claims = List.range' T s.claims.length
  cursor_eq : s.nextBlock = T + s.claims.length
  folds_eq : ∀ w, s.folds w = if s.workers w = none then 1 else 0
  acc_eq : s.pi + ∑ w, (if s.workers w = none then 0 else s.locals w)
      = (s.computed.map blockSum).sum
  disp_eq : (s.computed : Multiset ℕ) + ∑ w, pend s w
      = idsLE T + ((s.claims.filter (fun v => v ≤ NUMBER_OF_BLOCKS)) : Multiset ℕ)
  high_le : (∑ w, hiCnt s w * (if (w : ℕ) ≤ NUMBER_OF_BLOCKS then 1 else 0))
      ≤ (s.claims.filter (fun v => NUMBER_OF_BLOCKS < v)).length
  cursor_le : s.nextBlock ≤ NUMBER_OF_BLOCKS + 1 + ∑ w, hiCnt s w

theorem numBlocks_mul_ge (n b : ℕ) (hb : 1 ≤ b) : n ≤ numBlocks n b * b := by
  unfold numBlocks
  by_cases h : n % b = 0
  · simp only [h, ne_eq, not_true_eq_false, if_false, add_zero]
    exact le_of_eq (Nat.div_mul_cancel (Nat.dvd_of_mod_eq_zero h)).symm
  · simp only [ne_eq, h, not_false_eq_true, if_true]
    have h1 : n % b < b := Nat.mod_lt _ hb
    have h2 : n / b * b + n % b = n := Nat.div_add_mod' n b
    calc n = n / b * b + n % b := h2.symm
    _ ≤ n / b * b + b := by omega
    _ = (n / b + 1) * b := by ring

theorem mul_lt_of_lt_numBlocks {n b k : ℕ} (hk : k < numBlocks n b) :
    k * b < n := by
  unfold numBlocks at hk
  by_cases h : n % b = 0
  · simp only [h, ne_eq, not_true_eq_false, if_false, add_zero] at hk
    have := (Nat.lt_div_iff_mul_lt (Nat.dvd_of_mod_eq_zero h) k).mp hk
    calc k * b = b * k := Nat.mul_comm k b
    _ < n := this
  · simp only [ne_eq, h, not_false_eq_true, if_true] at hk
    have hkb : k ≤ n / b := by omega
    have h1 : k * b ≤ n / b * b := Nat.mul_le_mul_right b hkb
    have h2 : n / b * b + n % b = n := Nat.div_add_mod' n b
    have h3 : 1 ≤ n % b := Nat.one_le_iff_ne_zero.mpr h
    calc k * b < k * b + n % b := by omega
    _ ≤ n / b * b + n % b := by omega
    _ = n := h2

theorem div_lt_numBlocks {n b i : ℕ} (hi : i < n) :
    i / b < numBlocks n b := by
  unfold numBlocks
  by_cases h : n % b = 0
  · simp only [h, ne_eq, not_true_eq_false, if_false, add_zero]
    exact Nat.div_lt_div_of_lt_of_dvd (Nat.dvd_of_mod_eq_zero h) hi
  · simp only [ne_eq, h, not_false_eq_true, if_true]
    have : i / b ≤ n / b := Nat.div_le_div_right (le_of_lt hi)
    omega

theorem endIteration_le (n b k : ℕ) : endIteration n b k ≤ n ∨
    endIteration n b k = (k + 1) * b := by
  unfold endIteration
  split
  · exact Or.inl (le_refl n)
  · exact Or.inr rfl

theorem endIteration_le_both (n b k : ℕ) :
    endIteration n b k ≤ n ∧ endIteration n b k ≤ (k + 1) * b := by
  unfold endIteration
  split
  · next hgt => exact ⟨le_refl n, le_of_lt hgt⟩
  · next hle => exact ⟨le_of_not_lt hle, le_refl _⟩

theorem mem_blockRange {n b k i : ℕ} :
    i ∈ blockRange n b k ↔ k * b ≤ i ∧ i < endIteration n b k := by
  unfold blockRange startIteration
  exact Finset.mem_Ico

theorem blockRange_biUnion (n b : ℕ) (hb : 1 ≤ b) :
    (Finset.range (numBlocks n b)).biUnion (blockRange n b) = Finset.range n := by
  ext i
  simp only [Finset.mem_biUnion, Finset.mem_range, mem_blockRange]
  constructor
  · rintro ⟨k, _, _, he⟩
    exact lt_of_lt_of_le he (endIteration_le_both n b k).1
  · intro hi
    refine ⟨i / b, div_lt_numBlocks hi, Nat.div_mul_le_self i b, ?_⟩
    have h1 : i / b * b + i % b = i := Nat.div_add_mod' i b
    have h2 : i % b < b := Nat.mod_lt _ hb
    have h3 : i < (i / b + 1) * b := by
      calc i = i / b * b + i % b := h1.symm
      _ < i / b * b + b := by omega
      _ = (i / b + 1) * b := by ring
    unfold endIteration
    split
    · exact hi
    · exact h3

theorem blockRange_disjoint_of_lt (n b : ℕ) {k₁ k₂ : ℕ} (h : k₁ < k₂) :
    Disjoint (blockRange n b k₁) (blockRange n b k₂) := by
  rw [Finset.disjoint_left]
  intro i hi1 hi2
  rw [mem_blockRange] at hi1 hi2
  have h1 : i < (k₁ + 1) * b := lt_of_lt_of_le hi1.2 (endIteration_le_both n b k₁).2
  have h2 : (k₁ + 1) * b ≤ k₂ * b := Nat.mul_le_mul_right b h
  exact absurd (lt_of_lt_of_le h1 h2) (not_lt.mpr hi2.1)

theorem blockRange_disjoint (n b : ℕ) {k₁ k₂ : ℕ} (h : k₁ ≠ k₂) :
    Disjoint (blockRange n b k₁) (blockRange n b k₂) := by
  rcases lt_or_gt_of_ne h with hlt | hgt
  · exact blockRange_disjoint_of_lt n b hlt
  · exact (blockRange_disjoint_of_lt n b hgt).symm

theorem blockRange_eq_empty {n b k : ℕ} (hb : 1 ≤ b) (hk : numBlocks n b ≤ k) :
    blockRange n b k = ∅ := by
  apply Finset.Ico_eq_empty
  intro hlt
  have h1 : n ≤ k * b :=
    le_trans (numBlocks_mul_ge n b hb) (Nat.mul_le_mul_right b hk)
  have h2 : endIteration n b k ≤ n ∧ _ := endIteration_le_both n b k
  have : startIteration n b k < n := lt_of_lt_of_le hlt h2.1
  unfold startIteration at this
  omega

theorem sum_update_add {T : ℕ} {M : Type*} [AddCommMonoid M] (g : Fin T → M) (w : Fin T) (b : M) :
    (∑ x, Function.update g w b x) + g w = (∑ x, g x) + b := by
  rw [Finset.sum_update_of_mem (Finset.mem_univ w),
    Finset.sum_eq_sum_diff_singleton_add (Finset.mem_univ w) g]
  abel

theorem sum_ite_locals_update {T : ℕ} (workers : Fin T → Option ℕ) (locals : Fin T → ℚ)
    (w : Fin T) (v : Option ℕ) (q : ℚ) :
    (∑ x, (if Function.update workers w v x = none then 0 else Function.update locals w q x))
      = (∑ x, (if workers x = none then 0 else locals x))
        - (if workers w = none then 0 else locals w)
        + (if v = none then 0 else q) := by
  have hfun : (fun x => if Function.update workers w v x = none then (0 : ℚ)
        else Function.update locals w q x)
      = Function.update (fun x => if workers x = none then (0 : ℚ) else locals x) w
        (if v = none then 0 else q) := by
    funext x
    by_cases hxw : x = w
    · subst hxw
      simp [Function.update_same]
    · simp [Function.update_noteq hxw]
  rw [hfun]
  have h2 := sum_update_add (fun x => if workers x = none then (0 : ℚ) else locals x) w
    (if v = none then 0 else q)
  linarith

theorem sum_ite_workers_update {T : ℕ} (workers : Fin T → Option ℕ) (locals : Fin T → ℚ)
    (w : Fin T) (v : Option ℕ) :
    (∑ x, (if Function.update workers w v x = none then 0 else locals x))
      = (∑ x, (if workers x = none then 0 else locals x))
        - (if workers w = none then 0 else locals w)
        + (if v = none then 0 else locals w) := by
  have hfun : (fun x => if Function.update workers w v x = none then (0 : ℚ) else locals x)
      = Function.update (fun x => if workers x = none then (0 : ℚ) else locals x) w
        (if v = none then 0 else locals w) := by
    funext x
    by_cases hxw : x = w
    · subst hxw
      simp [Function.update_same]
    · simp [Function.update_noteq hxw]
  rw [hfun]
  have h2 := sum_update_add (fun x => if workers x = none then (0 : ℚ) else locals x) w
    (if v = none then 0 else locals w)
  linarith

theorem step_of_done {T : ℕ} {s : ProgState T} {w : Fin T} (hw : s.workers w = none) :
    step w s = s := by
  unfold step
  rw [hw]

theorem step_body_nextBlock {T : ℕ} {s : ProgState T} {w : Fin T} {cb : ℕ}
    (hw : s.workers w = some cb) (hcb : cb ≤ NUMBER_OF_BLOCKS) :
    (step w s).nextBlock = s.nextBlock + 1 := by
  unfold step
  rw [hw]
  simp [hcb, fetch_add]

theorem step_body_pi {T : ℕ} {s : ProgState T} {w : Fin T} {cb : ℕ}
    (hw : s.workers w = some cb) (hcb : cb ≤ NUMBER_OF_BLOCKS) :
    (step w s).pi = s.pi := by
  unfold step
  rw [hw]
  simp [hcb]

theorem step_body_workers {T : ℕ} {s : ProgState T} {w : Fin T} {cb : ℕ}
    (hw : s.workers w = some cb) (hcb : cb ≤ NUMBER_OF_BLOCKS) :
    (step w s).workers = Function.update s.workers w (some s.nextBlock) := by
  unfold step
  rw [hw]
  simp [hcb, fetch_add]

theorem step_body_locals {T : ℕ} {s : ProgState T} {w : Fin T} {cb : ℕ}
    (hw : s.workers w = some cb) (hcb : cb ≤ NUMBER_OF_BLOCKS) :
    (step w s).locals = Function.update s.locals w (s.locals w + blockSum cb) := by
  unfold step
  rw [hw]
  simp [hcb]

theorem step_body_claims {T : ℕ} {s : ProgState T} {w : Fin T} {cb : ℕ}
    (hw : s.workers w = some cb) (hcb : cb ≤ NUMBER_OF_BLOCKS) :
    (step w s).claims = s.claims ++ [s.nextBlock] := by
  unfold step
  rw [hw]
  simp [hcb, fetch_add]

theorem step_body_computed {T : ℕ} {s : ProgState T} {w : Fin T} {cb : ℕ}
    (hw : s.workers w = some cb) (hcb : cb ≤ NUMBER_OF_BLOCKS) :
    (step w s).computed = s.computed ++ [cb] := by
  unfold step
  rw [hw]
  simp [hcb]

theorem step_body_sigs {T : ℕ} {s : ProgState T} {w : Fin T} {cb : ℕ}
    (hw : s.workers w = some cb) (hcb : cb ≤ NUMBER_OF_BLOCKS) :
    (step w s).sigs = Function.update s.sigs w (s.sigs w + 1) := by
  unfold step
  rw [hw]
  simp [hcb]

theorem step_body_folds {T : ℕ} {s : ProgState T} {w : Fin T} {cb : ℕ}
    (hw : s.workers w = some cb) (hcb : cb ≤ NUMBER_OF_BLOCKS) :
    (step w s).folds = s.folds := by
  unfold step
  rw [hw]
  simp [hcb]

theorem step_exit_nextBlock {T : ℕ} {s : ProgState T} {w : Fin T} {cb : ℕ}
    (hw : s.workers w = some cb) (hcb : NUMBER_OF_BLOCKS < cb) :
    (step w s).nextBlock = s.nextBlock := by
  unfold step
  rw [hw]
  simp [not_le.mpr hcb]

theorem step_exit_pi {T : ℕ} {s : ProgState T} {w : Fin T} {cb : ℕ}
    (hw : s.workers w = some cb) (hcb : NUMBER_OF_BLOCKS < cb) :
    (step w s).pi = s.pi + s.locals w := by
  unfold step
  rw [hw]
  simp [not_le.mpr hcb]

theorem step_exit_workers {T : ℕ} {s : ProgState T} {w : Fin T} {cb : ℕ}
    (hw : s.workers w = some cb) (hcb : NUMBER_OF_BLOCKS < cb) :
    (step w s).workers = Function.update s.workers w none := by
  unfold step
  rw [hw]
  simp [not_le.mpr hcb]

theorem step_exit_locals {T : ℕ} {s : ProgState T} {w : Fin T} {cb : ℕ}
    (hw : s.workers w = some cb) (hcb : NUMBER_OF_BLOCKS < cb) :
    (step w s).locals = s.locals := by
  unfold step
  rw [hw]
  simp [not_le.mpr hcb]

theorem step_exit_claims {T : ℕ} {s : ProgState T} {w : Fin T} {cb : ℕ}
    (hw : s.workers w = some cb) (hcb : NUMBER_OF_BLOCKS < cb) :
    (step w s).claims = s.claims := by
  unfold step
  rw [hw]
  simp [not_le.mpr hcb]

theorem step_exit_computed {T : ℕ} {s : ProgState T} {w : Fin T} {cb : ℕ}
    (hw : s.workers w = some cb) (hcb : NUMBER_OF_BLOCKS < cb) :
    (step w s).computed = s.computed := by
  unfold step
  rw [hw]
  simp [not_le.mpr hcb]

theorem step_exit_sigs {T : ℕ} {s : ProgState T} {w : Fin T} {cb : ℕ}
    (hw : s.workers w = some cb) (hcb : NUMBER_OF_BLOCKS < cb) :
    (step w s).sigs = s.sigs := by
  unfold step
  rw [hw]
  simp [not_le.mpr hcb]

theorem step_exit_folds {T : ℕ} {s : ProgState T} {w : Fin T} {cb : ℕ}
    (hw : s.workers w = some cb) (hcb : NUMBER_OF_BLOCKS < cb) :
    (step w s).folds = Function.update s.folds w (s.folds w + 1) := by
  unfold step
  rw [hw]
  simp [not_le.mpr hcb]

theorem pend_at_some {T : ℕ} {s : ProgState T} {w : Fin T} {cb : ℕ}
    (hw : s.workers w = some cb) :
    pend s w = if cb ≤ NUMBER_OF_BLOCKS then ({cb} : Multiset ℕ) else 0 := by
  unfold pend
  rw [hw]

theorem hiCnt_at_some {T : ℕ} {s : ProgState T} {w : Fin T} {cb : ℕ}
    (hw : s.workers w = some cb) :
    hiCnt s w = if NUMBER_OF_BLOCKS < cb then 1 else 0 := by
  unfold hiCnt
  rw [hw]

theorem pend_step_body {T : ℕ} {s : ProgState T} {w : Fin T} {cb : ℕ}
    (hw : s.workers w = some cb) (hcb : cb ≤ NUMBER_OF_BLOCKS) :
    pend (step w s)
      = Function.update (pend s) w
          (if s.nextBlock ≤ NUMBER_OF_BLOCKS then ({s.nextBlock} : Multiset ℕ) else 0) := by
  funext x
  unfold pend
  rw [step_body_workers hw hcb]
  by_cases hxw : x = w
  · subst hxw
    rw [Function.update_same, Function.update_same]
  · rw [Function.update_noteq hxw, Function.update_noteq hxw]

theorem hiCnt_step_body {T : ℕ} {s : ProgState T} {w : Fin T} {cb : ℕ}
    (hw : s.workers w = some cb) (hcb : cb ≤ NUMBER_OF_BLOCKS) :
    hiCnt (step w s)
      = Function.update (hiCnt s) w (if NUMBER_OF_BLOCKS < s.nextBlock then 1 else 0) := by
  funext x
  unfold hiCnt
  rw [step_body_workers hw hcb]
  by_cases hxw : x = w
  · subst hxw
    rw [Function.update_same, Function.update_same]
  · rw [Function.update_noteq hxw, Function.update_noteq hxw]

theorem pend_step_exit {T : ℕ} {s : ProgState T} {w : Fin T} {cb : ℕ}
    (hw : s.workers w = some cb) (hcb : NUMBER_OF_BLOCKS < cb) :
    pend (step w s) = pend s := by
  funext x
  unfold pend
  rw [step_exit_workers hw hcb]
  by_cases hxw : x = w
  · subst hxw
    rw [Function.update_same, hw]
    simp [not_le.mpr hcb]
  · rw [Function.update_noteq hxw]

theorem hiCnt_step_exit {T : ℕ} {s : ProgState T} {w : Fin T} {cb : ℕ}
    (hw : s.workers w = some cb) (hcb : NUMBER_OF_BLOCKS < cb) :
    hiCnt (step w s) = hiCnt s := by
  funext x
  unfold hiCnt
  rw [step_exit_workers hw hcb]
  by_cases hxw : x = w
  · subst hxw
    rw [Function.update_same, hw]
    simp [hcb]
  · rw [Function.update_noteq hxw]

theorem pend_init_sum (T : ℕ) : (∑ w, pend (init T) w) = idsLE T := by
  induction T with
  | zero => simp [idsLE]
  | succ t ih =>
    rw [Fin.sum_univ_castSucc]
    have h1 : ∀ w : Fin t, pend (init (t + 1)) w.castSucc = pend (init t) w := by
      intro w
      simp [pend, init]
    rw [Finset.sum_congr rfl (fun w _ => h1 w), ih]
    have h2 : pend (init (t + 1)) (Fin.last t)
        = if t ≤ NUMBER_OF_BLOCKS then ({t} : Multiset ℕ) else 0 := by
      simp [pend, init]
    rw [h2]
    unfold idsLE
    rw [List.range_succ, List.filter_append, ← Multiset.coe_add]
    congr 1
    by_cases h : t ≤ NUMBER_OF_BLOCKS
    · simp [h]
    · simp [h]

theorem hiCnt_init_sum (T : ℕ) :
    (∑ w, hiCnt (init T) w) = T - min T (NUMBER_OF_BLOCKS + 1) := by
  induction T with
  | zero => simp
  | succ t ih =>
    rw [Fin.sum_univ_castSucc]
    have h1 : ∀ w : Fin t, hiCnt (init (t + 1)) w.castSucc = hiCnt (init t) w := by
      intro w
      simp [hiCnt, init]
    rw [Finset.sum_congr rfl (fun w _ => h1 w), ih]
    have h2 : hiCnt (init (t + 1)) (Fin.last t)
        = if NUMBER_OF_BLOCKS < t then 1 else 0 := by
      simp [hiCnt, init]
    rw [h2]
    by_cases h : NUMBER_OF_BLOCKS < t
    · rw [if_pos h]
      omega
    · rw [if_neg h]
      omega

theorem high_init_sum (T : ℕ) :
    (∑ w, hiCnt (init T) w * (if (w : ℕ) ≤ NUMBER_OF_BLOCKS then 1 else 0)) = 0 := by
  apply Finset.sum_eq_zero
  intro w _
  have h1 : hiCnt (init T) w = if NUMBER_OF_BLOCKS < (w : ℕ) then 1 else 0 := by
    simp [hiCnt, init]
  rw [h1]
  by_cases h : NUMBER_OF_BLOCKS < (w : ℕ)
  · rw [if_pos h, if_neg (by omega), mul_zero]
  · rw [if_neg h, zero_mul]

theorem sysInv_init (T : ℕ) : SysInv T (init T) := by
  refine ⟨rfl, rfl, ?_, ?_, ?_, ?_, ?_⟩
  · intro w
    simp [init]
  · simp [init]
  · rw [pend_init_sum]
    simp [init]
  · rw [high_init_sum]
    simp [init]
  · rw [hiCnt_init_sum]
    show T ≤ NUMBER_OF_BLOCKS + 1 + (T - min T (NUMBER_OF_BLOCKS + 1))
    omega

theorem filter_singleton_le (v : ℕ) :
    (([v].filter (fun x => x ≤ NUMBER_OF_BLOCKS) : List ℕ) : Multiset ℕ)
      = (if v ≤ NUMBER_OF_BLOCKS then ({v} : Multiset ℕ) else 0) := by
  by_cases h : v ≤ NUMBER_OF_BLOCKS
  · simp [h]
  · simp [h]

theorem filter_singleton_lt_length (v : ℕ) :
    ([v].filter (fun x => NUMBER_OF_BLOCKS < x)).length
      = (if NUMBER_OF_BLOCKS < v then 1 else 0) := by
  by_cases h : NUMBER_OF_BLOCKS < v
  · simp [h]
  · simp [h]

theorem sysInv_step {T : ℕ} {s : ProgState T} (w : Fin T) (h : SysInv T s) :
    SysInv T (step w s) := by
  rcases hw : s.workers w with _ | cb
  · rw [step_of_done hw]
    exact h
  · by_cases hcb : cb ≤ NUMBER_OF_BLOCKS
    · refine ⟨?_, ?_, ?_, ?_, ?_, ?_, ?_⟩
      · rw [step_body_claims hw hcb, List.length_append, List.length_singleton,
          List.range'_concat, one_mul, ← h.cursor_eq, ← h.claims_eq]
      · rw [step_body_nextBlock hw hcb, step_body_claims hw hcb, List.length_append,
          List.length_singleton]
        have hc := h.cursor_eq
        omega
      · intro x
        rw [step_body_folds hw hcb, step_body_workers hw hcb]
        by_cases hxw : x = w
        · subst hxw
          rw [Function.update_same, if_neg (Option.some_ne_none _), h.folds_eq x, hw,
            if_neg (Option.some_ne_none _)]
        · rw [Function.update_noteq hxw]
          exact h.folds_eq x
      · rw [step_body_pi hw hcb, step_body_computed hw hcb, step_body_workers hw hcb,
          step_body_locals hw hcb]
        rw [sum_ite_locals_update]
        rw [List.map_append, List.sum_append]
        simp only [List.map_cons, List.map_nil, List.sum_cons, List.sum_nil, add_zero]
        have h1 := h.acc_eq
        have h2 : (if s.workers w = none then (0 : ℚ) else s.locals w) = s.locals w := by
          rw [hw]
          exact if_neg (Option.some_ne_none _)
        rw [h2, if_neg (Option.some_ne_none _)]
        linarith
      · rw [step_body_computed hw hcb, step_body_claims hw hcb, pend_step_body hw hcb]
        have hps := sum_update_add (pend s) w
          (if s.nextBlock ≤ NUMBER_OF_BLOCKS then ({s.nextBlock} : Multiset ℕ) else 0)
        have hpw : pend s w = ({cb} : Multiset ℕ) := by
          rw [pend_at_some hw, if_pos hcb]
        rw [hpw] at hps
        rw [← Multiset.coe_add, Multiset.coe_singleton, List.filter_append, ← Multiset.coe_add,
          filter_singleton_le]
        have hd := h.disp_eq
        have key : ((↑s.computed : Multiset ℕ) + {cb}
              + ∑ x, Function.update (pend s) w
                  (if s.nextBlock ≤ NUMBER_OF_BLOCKS then ({s.nextBlock} : Multiset ℕ) else 0) x)
              + {cb}
            = (idsLE T + (((s.claims.filter (fun v => v ≤ NUMBER_OF_BLOCKS)) : Multiset ℕ)
              + (if s.nextBlock ≤ NUMBER_OF_BLOCKS then ({s.nextBlock} : Multiset ℕ) else 0)))
              + {cb} := by
          calc ((↑s.computed : Multiset ℕ) + {cb}
                + ∑ x, Function.update (pend s) w
                    (if s.nextBlock ≤ NUMBER_OF_BLOCKS then ({s.nextBlock} : Multiset ℕ) else 0) x)
                + {cb}
              = (↑s.computed : Multiset ℕ) + {cb}
                + ((∑ x, Function.update (pend s) w
                    (if s.nextBlock ≤ NUMBER_OF_BLOCKS then ({s.nextBlock} : Multiset ℕ) else 0) x)
                  + {cb}) := by abel
          _ = (↑s.computed : Multiset ℕ) + {cb} + ((∑ x, pend s x)
                + (if s.nextBlock ≤ NUMBER_OF_BLOCKS then ({s.nextBlock} : Multiset ℕ) else 0)) := by
              rw [hps]
          _ = ((↑s.computed : Multiset ℕ) + ∑ x, pend s x)
                + ({cb} + (if s.nextBlock ≤ NUMBER_OF_BLOCKS then ({s.nextBlock} : Multiset ℕ) else 0)) := by
              abel
          _ = (idsLE T + ((s.claims.filter (fun v => v ≤ NUMBER_OF_BLOCKS)) : Multiset ℕ))
                + ({cb} + (if s.nextBlock ≤ NUMBER_OF_BLOCKS then ({s.nextBlock} : Multiset ℕ) else 0)) := by
              rw [hd]
          _ = (idsLE T + (((s.claims.filter (fun v => v ≤ NUMBER_OF_BLOCKS)) : Multiset ℕ)
                + (if s.nextBlock ≤ NUMBER_OF_BLOCKS then ({s.nextBlock} : Multiset ℕ) else 0)))
                + {cb} := by
              abel
        exact add_right_cancel key
      · rw [step_body_claims hw hcb, hiCnt_step_body hw hcb]
        have hzero : hiCnt s w = 0 := by
          rw [hiCnt_at_some hw, if_neg (not_lt.mpr hcb)]
        have hs2 : (∑ x, Function.update (hiCnt s) w
              (if NUMBER_OF_BLOCKS < s.nextBlock then 1 else 0) x
                * (if (x : ℕ) ≤ NUMBER_OF_BLOCKS then 1 else 0))
            = (∑ x, hiCnt s x * (if (x : ℕ) ≤ NUMBER_OF_BLOCKS then 1 else 0))
              + (if NUMBER_OF_BLOCKS < s.nextBlock then 1 else 0)
                * (if (w : ℕ) ≤ NUMBER_OF_BLOCKS then 1 else 0) := by
          have hfun : (fun x => Function.update (hiCnt s) w
                (if NUMBER_OF_BLOCKS < s.nextBlock then 1 else 0) x
                  * (if (x : ℕ) ≤ NUMBER_OF_BLOCKS then 1 else 0))
              = Function.update (fun x => hiCnt s x * (if (x : ℕ) ≤ NUMBER_OF_BLOCKS then 1 else 0))
                  w ((if NUMBER_OF_BLOCKS < s.nextBlock then 1 else 0)
                    * (if (w : ℕ) ≤ NUMBER_OF_BLOCKS then 1 else 0)) := by
            funext x
            by_cases hxw : x = w
            · subst hxw
              rw [Function.update_same, Function.update_same]
            · rw [Function.update_noteq hxw, Function.update_noteq hxw]
          rw [hfun]
          have := sum_update_add
            (fun x => hiCnt s x * (if (x : ℕ) ≤ NUMBER_OF_BLOCKS then 1 else 0)) w
            ((if NUMBER_OF_BLOCKS < s.nextBlock then 1 else 0)
              * (if (w : ℕ) ≤ NUMBER_OF_BLOCKS then 1 else 0))
          simpa [hzero] using this
        rw [hs2, List.filter_append, List.length_append, filter_singleton_lt_length]
        have hle := h.high_le
        have hU : (if NUMBER_OF_BLOCKS < s.nextBlock then 1 else 0)
              * (if (w : ℕ) ≤ NUMBER_OF_BLOCKS then 1 else 0)
            ≤ (if NUMBER_OF_BLOCKS < s.nextBlock then 1 else 0) := by
          by_cases h1 : NUMBER_OF_BLOCKS < s.nextBlock
            <;> by_cases h2 : (w : ℕ) ≤ NUMBER_OF_BLOCKS <;> simp [h1, h2]
        exact Nat.add_le_add hle hU
      · rw [step_body_nextBlock hw hcb, hiCnt_step_body hw hcb]
        have hzero : hiCnt s w = 0 := by
          rw [hiCnt_at_some hw, if_neg (not_lt.mpr hcb)]
        have hs2 := sum_update_add (hiCnt s) w
          (if NUMBER_OF_BLOCKS < s.nextBlock then 1 else 0)
        rw [hzero, add_zero] at hs2
        rw [hs2]
        have hcl := h.cursor_le
        by_cases hnb : NUMBER_OF_BLOCKS < s.nextBlock
        · rw [if_pos hnb]
          omega
        · rw [if_neg hnb]
          omega
    · have hcb2 : NUMBER_OF_BLOCKS < cb := not_le.mp hcb
      refine ⟨?_, ?_, ?_, ?_, ?_, ?_, ?_⟩
      · rw [step_exit_claims hw hcb2]
        exact h.claims_eq
      · rw [step_exit_nextBlock hw hcb2, step_exit_claims hw hcb2]
        exact h.cursor_eq
      · intro x
        rw [step_exit_folds hw hcb2, step_exit_workers hw hcb2]
        by_cases hxw : x = w
        · subst hxw
          rw [Function.update_same, Function.update_same, if_pos rfl, h.folds_eq x, hw,
            if_neg (Option.some_ne_none _)]
        · rw [Function.update_noteq hxw, Function.update_noteq hxw]
          exact h.folds_eq x
      · rw [step_exit_pi hw hcb2, step_exit_computed hw hcb2, step_exit_workers hw hcb2,
          step_exit_locals hw hcb2]
        rw [sum_ite_workers_update]
        have h1 := h.acc_eq
        have h2 : (if s.workers w = none then (0 : ℚ) else s.locals w) = s.locals w := by
          rw [hw]
          exact if_neg (Option.some_ne_none _)
        rw [h2, if_pos rfl]
        linarith
      · rw [step_exit_computed hw hcb2, step_exit_claims hw hcb2, pend_step_exit hw hcb2]
        exact h.disp_eq
      · rw [step_exit_claims hw hcb2, hiCnt_step_exit hw hcb2]
        exact h.high_le
      · rw [step_exit_nextBlock hw hcb2, hiCnt_step_exit hw hcb2]
        exact h.cursor_le

theorem sysInv_foldl {T : ℕ} :
    ∀ (l : List (Fin T)) (s : ProgState T), SysInv T s →
      SysInv T (l.foldl (fun s w => step w s) s) := by
  intro l
  induction l with
  | nil => intro s hs; exact hs
  | cons a t ih => intro s hs; exact ih (step a s) (sysInv_step a hs)

theorem sysInv_run (T : ℕ) (sched : List (Fin T)) : SysInv T (run T sched) :=
  sysInv_foldl sched (init T) (sysInv_init T)

theorem step_nextBlock_mono {T : ℕ} (w : Fin T) (s : ProgState T) :
    s.nextBlock ≤ (step w s).nextBlock := by
  rcases hw : s.workers w with _ | cb
  · rw [step_of_done hw]
  · by_cases hcb : cb ≤ NUMBER_OF_BLOCKS
    · rw [step_body_nextBlock hw hcb]
      omega
    · rw [step_exit_nextBlock hw (not_le.mp hcb)]

theorem foldl_nextBlock_mono {T : ℕ} :
    ∀ (l : List (Fin T)) (s : ProgState T),
      s.nextBlock ≤ (l.foldl (fun s w => step w s) s).nextBlock := by
  intro l
  induction l with
  | nil => intro s; exact le_refl _
  | cons a t ih => intro s; exact le_trans (step_nextBlock_mono a s) (ih (step a s))

theorem filter_le_range' (m : ℕ) :
    ∀ n a : ℕ, (List.range' a n).filter (fun v => v ≤ m) = List.range' a (min n (m + 1 - a)) := by
  intro n
  induction n with
  | zero => intro a; simp
  | succ k ih =>
    intro a
    rw [List.range'_succ, List.filter_cons]
    by_cases h : a ≤ m
    · rw [if_pos (by simp [h]), ih (a + 1)]
      have e1 : min (k + 1) (m + 1 - a) = min k (m + 1 - (a + 1)) + 1 := by omega
      rw [e1, List.range'_succ]
    · rw [if_neg (by simp [h]), ih (a + 1)]
      have e1 : m + 1 - (a + 1) = 0 := by omega
      have e2 : m + 1 - a = 0 := by omega
      rw [e1, e2]
      simp

theorem length_filter_split (m : ℕ) :
    ∀ l : List ℕ,
      (l.filter (fun v => m < v)).length + (l.filter (fun v => v ≤ m)).length = l.length := by
  intro l
  induction l with
  | nil => rfl
  | cons a t ih =>
    simp only [List.filter_cons]
    by_cases h : a ≤ m
    · rw [if_neg (by simp [not_lt.mpr h]), if_pos (by simp [h])]
      simp only [List.length_cons]
      omega
    · rw [if_pos (by simp [not_le.mp h]), if_neg (by simp [h])]
      simp only [List.length_cons]
      omega

theorem sum_ite_le_min (m : ℕ) :
    ∀ T : ℕ, (∑ w : Fin T, (if (w : ℕ) ≤ m then 1 else 0)) = min T (m + 1) := by
  intro T
  induction T with
  | zero => simp
  | succ t ih =>
    rw [Fin.sum_univ_castSucc]
    simp only [Fin.coe_castSucc, Fin.val_last]
    rw [ih]
    by_cases h : t ≤ m
    · rw [if_pos h]
      omega
    · rw [if_neg h]
      omega

theorem final_claims_length {T : ℕ} {s : ProgState T} (hT : 1 ≤ T) (h : SysInv T s)
    (hdone : ∀ w, s.workers w = none) :
    NUMBER_OF_BLOCKS + 1 ≤ T + s.claims.length := by
  have h1 : ∀ w : Fin T, hiCnt s w = 1 := by
    intro w
    unfold hiCnt
    rw [hdone w]
  have h2 : (∑ w, hiCnt s w * (if (w : ℕ) ≤ NUMBER_OF_BLOCKS then 1 else 0))
      = (∑ w : Fin T, (if (w : ℕ) ≤ NUMBER_OF_BLOCKS then 1 else 0)) := by
    apply Finset.sum_congr rfl
    intro w _
    rw [h1 w, one_mul]
  have h3 := h.high_le
  rw [h2, sum_ite_le_min] at h3
  have h4 := length_filter_split NUMBER_OF_BLOCKS s.claims
  have h5 : (s.claims.filter (fun v => v ≤ NUMBER_OF_BLOCKS)).length
      = min s.claims.length (NUMBER_OF_BLOCKS + 1 - T) := by
    conv_lhs => rw [h.claims_eq]
    rw [filter_le_range', List.length_range']
  omega

theorem final_computed {T : ℕ} {s : ProgState T} (hT : 1 ≤ T) (h : SysInv T s)
    (hdone : ∀ w, s.workers w = none) :
    (s.computed : Multiset ℕ) = (List.range (NUMBER_OF_BLOCKS + 1) : Multiset ℕ) := by
  have hp : ∀ w : Fin T, pend s w = 0 := by
    intro w
    unfold pend
    rw [hdone w]
  have hps : (∑ w, pend s w) = 0 := Finset.sum_eq_zero (fun w _ => hp w)
  have hd := h.disp_eq
  rw [hps, add_zero] at hd
  have hn := final_claims_length hT h hdone
  have h5 : s.claims.filter (fun v => v ≤ NUMBER_OF_BLOCKS)
      = List.range' T (NUMBER_OF_BLOCKS + 1 - T) := by
    conv_lhs => rw [h.claims_eq]
    rw [filter_le_range']
    congr 1
    omega
  rw [h5] at hd
  have h6 : idsLE T = ((List.range' 0 (min T (NUMBER_OF_BLOCKS + 1)) : List ℕ) : Multiset ℕ) := by
    unfold idsLE
    rw [List.range_eq_range', filter_le_range']
    simp
  rw [h6] at hd
  rw [hd]
  rcases le_or_lt T (NUMBER_OF_BLOCKS + 1) with hc | hc
  · have e1 : min T (NUMBER_OF_BLOCKS + 1) = T := min_eq_left hc
    rw [e1, Multiset.coe_add]
    have e2 : List.range' 0 T ++ List.range' T (NUMBER_OF_BLOCKS + 1 - T)
        = List.range' 0 (NUMBER_OF_BLOCKS + 1) := by
      have h7 := List.range'_append 0 T (NUMBER_OF_BLOCKS + 1 - T) 1
      simp only [one_mul, zero_add] at h7
      rw [h7]
      congr 1
      omega
    rw [e2, ← List.range_eq_range']
  · have e1 : min T (NUMBER_OF_BLOCKS + 1) = NUMBER_OF_BLOCKS + 1 := min_eq_right (le_of_lt hc)
    have e2 : NUMBER_OF_BLOCKS + 1 - T = 0 := by omega
    rw [e1, e2]
    simp [← List.range_eq_range']

theorem list_map_sum_range (g : ℕ → ℚ) :
    ∀ n : ℕ, ((List.range n).map g).sum = ∑ i ∈ Finset.range n, g i := by
  intro n
  induction n with
  | zero => simp
  | succ k ih =>
    rw [List.range_succ, List.map_append, List.sum_append, Finset.sum_range_succ, ih]
    simp

theorem blockSum_total :
    (∑ k ∈ Finset.range NUMBER_OF_BLOCKS, blockSum k) = ∑ i ∈ Finset.range N, f i := by
  have hdisj : (↑(Finset.range NUMBER_OF_BLOCKS) : Set ℕ).PairwiseDisjoint
      (blockRange N BLOCK_SIZE) := by
    intro x _ y _ hxy
    exact blockRange_disjoint N BLOCK_SIZE hxy
  have hb : 1 ≤ BLOCK_SIZE := by decide
  rw [show Finset.range N = (Finset.range NUMBER_OF_BLOCKS).biUnion (blockRange N BLOCK_SIZE)
    from (blockRange_biUnion N BLOCK_SIZE hb).symm]
  rw [Finset.sum_biUnion hdisj]
  rfl

theorem blockSum_last : blockSum NUMBER_OF_BLOCKS = 0 := by
  unfold blockSum
  have hk : numBlocks N BLOCK_SIZE ≤ NUMBER_OF_BLOCKS := le_of_eq rfl
  rw [blockRange_eq_empty (by decide) hk]
  exact Finset.sum_empty

theorem final_pi {T : ℕ} {s : ProgState T} (hT : 1 ≤ T) (h : SysInv T s)
    (hdone : ∀ w, s.workers w = none) :
    s.pi = ∑ i ∈ Finset.range N, f i := by
  have hz : (∑ w, (if s.workers w = none then (0 : ℚ) else s.locals w)) = 0 :=
    Finset.sum_eq_zero (fun w _ => by rw [hdone w, if_pos rfl])
  have h1 := h.acc_eq
  rw [hz, add_zero] at h1
  have h2 : s.computed.Perm (List.range (NUMBER_OF_BLOCKS + 1)) :=
    Multiset.coe_eq_coe.mp (final_computed hT h hdone)
  have h3 : (s.computed.map blockSum).sum
      = ((List.range (NUMBER_OF_BLOCKS + 1)).map blockSum).sum :=
    (h2.map blockSum).sum_eq
  rw [h1, h3, list_map_sum_range, Finset.sum_range_succ, blockSum_last, add_zero, blockSum_total]

/-- C1: under any schedule, the values returned by the atomic `fetch_add`
claims are exactly the consecutive integers starting at `T`, with no
duplicates; once `NUMBER_OF_BLOCKS - T` claims have been made (for
`T ≤ NUMBER_OF_BLOCKS`), the pre-assigned initial blocks `0 .. T-1`
together with the claimed values are exactly the block indices
`0 .. NUMBER_OF_BLOCKS - 1`, each dispensed exactly once — no duplicate
dispatch, no skipped block — regardless of the schedule. -/
theorem spec_C1 (T : ℕ) (sched : List (Fin T)) :
    (run T sched).claims = List.range' T (run T sched).claims.length ∧
    (run T sched).claims.Nodup ∧
    (T ≤ NUMBER_OF_BLOCKS → (run T sched).claims.length = NUMBER_OF_BLOCKS - T →
      List.range T ++ (run T sched).claims = List.range NUMBER_OF_BLOCKS ∧
      ∀ k, k < NUMBER_OF_BLOCKS →
        (List.range T ++ (run T sched).claims).count k = 1) := by
  have h := sysInv_run T sched
  refine ⟨h.claims_eq, ?_, ?_⟩
  · rw [h.claims_eq]
    exact List.nodup_range' _ _
  · intro hT hlen
    have key : List.range T ++ (run T sched).claims = List.range NUMBER_OF_BLOCKS := by
      rw [h.claims_eq, hlen, List.range_eq_range' T, List.range_eq_range' NUMBER_OF_BLOCKS]
      have h7 := List.range'_append 0 T (NUMBER_OF_BLOCKS - T) 1
      simp only [one_mul, zero_add] at h7
      rw [h7]
      congr 1
      omega
    refine ⟨key, ?_⟩
    intro k hk
    rw [key]
    exact List.count_eq_one_of_mem (List.nodup_range _) (List.mem_range.mpr hk)

/-- Witness for C1: with one worker and twelve claim turns, the claims
together with the pre-assigned block 0 are exactly the thirteen block
indices. -/
theorem spec_C1_witness :
    List.range 1 ++ (run 1 (List.replicate 12 0)).claims = List.range NUMBER_OF_BLOCKS :=
  ((spec_C1 1 (List.replicate 12 0)).2.2 (by decide) (by decide)).1

/-- C2: for every `N ≥ 1` and `B ≥ 1`, with `M = ceil(N/B)` blocks, the
block ranges partition `[0, N)` exactly: their union is `[0, N)` and they
are pairwise disjoint; when `B` divides `N` there are exactly `N / B`
blocks, and otherwise the last block ends exactly at `N` with length
`< B`. -/
theorem spec_C2 (n b : ℕ) (hn : 1 ≤ n) (hb : 1 ≤ b) :
    ((Finset.range (numBlocks n b)).biUnion (blockRange n b) = Finset.range n) ∧
    (∀ k₁ ∈ Finset.range (numBlocks n b), ∀ k₂ ∈ Finset.range (numBlocks n b),
      k₁ ≠ k₂ → Disjoint (blockRange n b k₁) (blockRange n b k₂)) ∧
    (b ∣ n → numBlocks n b = n / b) ∧
    (¬ b ∣ n →
      endIteration n b (numBlocks n b - 1) = n ∧
      (blockRange n b (numBlocks n b - 1)).card < b) := by
  refine ⟨blockRange_biUnion n b hb, ?_, ?_, ?_⟩
  · intro k₁ _ k₂ _ hne
    exact blockRange_disjoint n b hne
  · intro hdvd
    obtain ⟨c, rfl⟩ := hdvd
    unfold numBlocks
    simp [Nat.mul_mod_right]
  · intro hnd
    have hm : n % b ≠ 0 := fun hc => hnd (Nat.dvd_of_mod_eq_zero hc)
    have hM : numBlocks n b = n / b + 1 := by
      unfold numBlocks
      rw [if_pos hm]
    have hgt : (n / b + 1) * b > n := by
      have h2 : n / b * b + n % b = n := Nat.div_add_mod' n b
      have h3 : n % b < b := Nat.mod_lt _ hb
      calc n = n / b * b + n % b := h2.symm
      _ < n / b * b + b := by omega
      _ = (n / b + 1) * b := by ring
    constructor
    · rw [hM]
      simp only [Nat.add_sub_cancel]
      unfold endIteration
      rw [if_pos hgt]
    · rw [hM]
      simp only [Nat.add_sub_cancel]
      unfold blockRange startIteration endIteration
      rw [if_pos hgt, Nat.card_Ico]
      have h2 : n / b * b + n % b = n := Nat.div_add_mod' n b
      have h3 : n % b < b := Nat.mod_lt _ hb
      omega

/-- Witness for C2: the concrete boundary example `N = 10`, `B = 3` gives
the four blocks `[0,3) [3,6) [6,9) [9,10)` and the partition property. -/
theorem spec_C2_witness :
    (blockRange 10 3 0 = Finset.Ico 0 3 ∧ blockRange 10 3 1 = Finset.Ico 3 6 ∧
      blockRange 10 3 2 = Finset.Ico 6 9 ∧ blockRange 10 3 3 = Finset.Ico 9 10 ∧
      numBlocks 10 3 = 4) ∧
    (Finset.range (numBlocks 10 3)).biUnion (blockRange 10 3) = Finset.range 10 :=
  ⟨by decide, (spec_C2 10 3 (by decide) (by decide)).1⟩

/-- C3 counterexample: with one worker, thirteen turns leave the worker
holding `currentBlock = NUMBER_OF_BLOCKS` (so not `< NUMBER_OF_BLOCKS`,
and the corresponding block range is empty), yet the fourteenth turn still
executes the loop body: the signal count rises to 14 and no fold has
happened — contradicting the claim that the loop body runs only while
`currentBlock < NUMBER_OF_BLOCKS` and that a worker whose block is empty
proceeds directly to the fold without signalling. -/
theorem spec_C3_counterexample :
    (run 1 (List.replicate 13 0)).workers 0 = some NUMBER_OF_BLOCKS ∧
    ¬ NUMBER_OF_BLOCKS < NUMBER_OF_BLOCKS ∧
    (run 1 (List.replicate 14 0)).sigs 0 = 14 ∧
    (run 1 (List.replicate 14 0)).folds 0 = 0 :=
  ⟨by decide, by omega, by decide, by decide⟩

/-- C3 (amended): a worker executes its loop body exactly while
`currentBlock ≤ NUMBER_OF_BLOCKS` — including for the final empty block,
for which it still signals completion and claims a further block — and
only once `currentBlock > NUMBER_OF_BLOCKS` does it proceed directly to
the fold, signalling nothing and claiming nothing on that turn. -/
theorem spec_C3 {T : ℕ} (s : ProgState T) (w : Fin T) (cb : ℕ)
    (hw : s.workers w = some cb) :
    (cb ≤ NUMBER_OF_BLOCKS →
      (step w s).sigs w = s.sigs w + 1 ∧
      (step w s).folds w = s.folds w ∧
      (step w s).claims = s.claims ++ [s.nextBlock]) ∧
    (NUMBER_OF_BLOCKS < cb →
      (step w s).folds w = s.folds w + 1 ∧
      (step w s).sigs w = s.sigs w ∧
      (step w s).claims = s.claims ∧
      (step w s).workers w = none ∧
      (step w s).pi = s.pi + s.locals w) := by
  constructor
  · intro hcb
    rw [step_body_sigs hw hcb, step_body_folds hw hcb, step_body_claims hw hcb]
    exact ⟨Function.update_same _ _ _, rfl, rfl⟩
  · intro hcb
    rw [step_exit_folds hw hcb, step_exit_sigs hw hcb, step_exit_claims hw hcb,
      step_exit_workers hw hcb, step_exit_pi hw hcb]
    exact ⟨Function.update_same _ _ _, rfl, rfl, Function.update_same _ _ _, rfl⟩

/-- Witness for C3 (amended) at the initial state of a one-worker run. -/
theorem spec_C3_witness :
    (step 0 (init 1)).sigs 0 = (init 1).sigs 0 + 1 ∧
    (step 0 (init 1)).folds 0 = (init 1).folds 0 := by
  have h := (spec_C3 (init 1) 0 0 rfl).1 (by decide)
  exact ⟨h.1, h.2.1⟩

/-- C4: at the failing input `numberOfThreads = 2` the start-of-run resume
loop touches indices 0, 1 and 2; index 2 is not a valid index of the
two-element handle array, so the coordinator resumes one handle past the
allocated array instead of exactly workers `0 .. T-1`. -/
theorem spec_C4 :
    startResumeIndices 2 = [0, 1, 2] ∧
    2 ∈ startResumeIndices 2 ∧
    ¬ (∀ i ∈ startResumeIndices 2, i < 2) :=
  ⟨by decide, by decide, by decide⟩

/-- C5: for every thread count `T ≥ 1` and every schedule that runs all
workers to termination, the shared accumulator holds exactly the
sequential sum of the integrand over `[0, N)` — the block-wise partial
sums over the partition recombine exactly in exact (rational)
arithmetic — and the final estimate is that sum divided by `N`. -/
theorem spec_C5 (T : ℕ) (sched : List (Fin T)) (hT : 1 ≤ T)
    (hdone : ∀ w, (run T sched).workers w = none) :
    (run T sched).pi = (∑ i ∈ Finset.range N, f i) ∧
    finalEstimate (run T sched).pi = (∑ i ∈ Finset.range N, f i) / (N : ℚ) := by
  have h1 := final_pi hT (sysInv_run T sched) hdone
  refine ⟨h1, ?_⟩
  rw [h1]
  rfl

/-- Witness for C5: the complete one-worker run. -/
theorem spec_C5_witness :
    (run 1 (List.replicate 15 0)).pi = ∑ i ∈ Finset.range N, f i :=
  (spec_C5 1 (List.replicate 15 0) (by decide) (by decide)).1

/-- C6: `fetch_add` has fetch-and-add semantics — it returns the
pre-increment value and increments the counter by exactly one; the cursor
is set to `numberOfThreads` in the initial state, before any worker turn,
and every transition either leaves the cursor and the claim log untouched
or performs exactly one `fetch_add`, recording the returned pre-increment
value as the claimed block. -/
theorem spec_C6 :
    (∀ c : ℕ, (fetch_add c).1 = c ∧ (fetch_add c).2 = c + 1) ∧
    (∀ T : ℕ, (init T).nextBlock = T) ∧
    (∀ (T : ℕ) (s : ProgState T) (w : Fin T),
      ((step w s).nextBlock = s.nextBlock ∧ (step w s).claims = s.claims) ∨
      ((step w s).nextBlock = (fetch_add s.nextBlock).2 ∧
        (step w s).claims = s.claims ++ [(fetch_add s.nextBlock).1])) := by
  refine ⟨fun c => ⟨rfl, rfl⟩, fun T => rfl, ?_⟩
  intro T s w
  rcases hw : s.workers w with _ | cb
  · left
    rw [step_of_done hw]
    exact ⟨rfl, rfl⟩
  · by_cases hcb : cb ≤ NUMBER_OF_BLOCKS
    · right
      rw [step_body_nextBlock hw hcb, step_body_claims hw hcb]
      exact ⟨rfl, rfl⟩
    · left
      have hcb2 := not_le.mp hcb
      rw [step_exit_nextBlock hw hcb2, step_exit_claims hw hcb2]
      exact ⟨rfl, rfl⟩

/-- C7 counterexample: with one worker, after fourteen turns the cursor
holds 15, which exceeds `NUMBER_OF_BLOCKS = 13`, so the cursor does not
stay within the range `[numberOfThreads, NUMBER_OF_BLOCKS]`. -/
theorem spec_C7_counterexample :
    (run 1 (List.replicate 14 0)).nextBlock = 15 ∧
    NUMBER_OF_BLOCKS = 13 ∧
    ¬ (run 1 (List.replicate 14 0)).nextBlock ≤ NUMBER_OF_BLOCKS :=
  ⟨by decide, by decide, by decide⟩

/-- C7 (amended): the cursor is monotonically nondecreasing along every
run, starts at `numberOfThreads`, and stays within
`[numberOfThreads, NUMBER_OF_BLOCKS + 1 + numberOfThreads]` — it can pass
`NUMBER_OF_BLOCKS + 1` by at most one further claim per worker, since each
worker keeps claiming until it receives a value past the loop bound. -/
theorem spec_C7 (T : ℕ) (sched extra : List (Fin T)) :
    T ≤ (run T sched).nextBlock ∧
    (run T sched).nextBlock ≤ NUMBER_OF_BLOCKS + 1 + T ∧
    (run T sched).nextBlock ≤ (run T (sched ++ extra)).nextBlock := by
  have h := sysInv_run T sched
  refine ⟨?_, ?_, ?_⟩
  · rw [h.cursor_eq]
    omega
  · have h1 := h.cursor_le
    have h2 : (∑ w, hiCnt (run T sched) w) ≤ T := by
      calc (∑ w, hiCnt (run T sched) w) ≤ ∑ _w : Fin T, 1 := by
            apply Finset.sum_le_sum
            intro w _
            unfold hiCnt
            cases hw : (run T sched).workers w with
            | none => exact le_refl 1
            | some cb =>
              show (if NUMBER_OF_BLOCKS < cb then 1 else 0) ≤ 1
              split
              · exact le_refl 1
              · omega
      _ = T := by simp
    omega
  · unfold run
    rw [List.foldl_append]
    exact foldl_nextBlock_mono extra _

/-- C8: the block-range computation is a pure function of `n`, `b` and the
block index `k`: it agrees with the specification formula
`[max(0, k*b), min((k+1)*b, n))` for every `k`, and for every `k ≥ M` it
yields the empty range. -/
theorem spec_C8 :
    (∀ n b k : ℕ, blockRange n b k = specBlockRange n b k) ∧
    (∀ n b k : ℕ, 1 ≤ n → 1 ≤ b → numBlocks n b ≤ k → blockRange n b k = ∅) := by
  constructor
  · intro n b k
    unfold blockRange specBlockRange startIteration endIteration
    congr 1
    · omega
    · split
      · omega
      · omega
  · intro n b k hn hb hk
    exact blockRange_eq_empty hb hk

/-- Witness for C8: a block inside the range and one past the block count
of the `N = 10`, `B = 3` instance. -/
theorem spec_C8_witness :
    blockRange 10 3 1 = specBlockRange 10 3 1 ∧ blockRange 10 3 4 = ∅ :=
  ⟨spec_C8.1 10 3 1, spec_C8.2 10 3 4 (by decide) (by decide) (by decide)⟩

/-- C9: every sample index at which the integrand is evaluated lies in
`[0, N)`: for every block index `k` a worker may hold, every index `i` in
the block range satisfies `i < n` (and `0 ≤ i` holds because indices are
naturals), since the end of the range is clamped to `n` and the start is
at or past `n` whenever `k ≥ M`. -/
theorem spec_C9 (n b k i : ℕ) (hi : i ∈ blockRange n b k) : i < n := by
  rw [mem_blockRange] at hi
  exact lt_of_lt_of_le hi.2 (endIteration_le_both n b k).1

/-- Witness for C9 at the last index of the last block of the `N = 10`,
`B = 3` instance. -/
theorem spec_C9_witness : 9 ∈ blockRange 10 3 3 ∧ 9 < 10 :=
  ⟨by decide, spec_C9 10 3 3 9 (by decide)⟩

/-- C10: in every completed run each worker has folded its local partial
sum into the shared accumulator exactly once, and a turn changes a
worker fold counter only when its block loop has exited, i.e. only when
the worker holds a block index past `NUMBER_OF_BLOCKS`. -/
theorem spec_C10 (T : ℕ) (sched : List (Fin T)) (w : Fin T)
    (hdone : ∀ x, (run T sched).workers x = none) :
    (run T sched).folds w = 1 ∧
    (∀ s : ProgState T, (step w s).folds w ≠ s.folds w →
      ∃ cb, s.workers w = some cb ∧ NUMBER_OF_BLOCKS < cb) := by
  constructor
  · rw [(sysInv_run T sched).folds_eq w, hdone w, if_pos rfl]
  · intro s hne
    rcases hw : s.workers w with _ | cb
    · exact absurd (by rw [step_of_done hw]) hne
    · by_cases hcb : cb ≤ NUMBER_OF_BLOCKS
      · exact absurd (by rw [step_body_folds hw hcb]) hne
      · exact ⟨cb, rfl, not_le.mp hcb⟩

/-- Witness for C10: the complete one-worker run folds exactly once. -/
theorem spec_C10_witness : (run 1 (List.replicate 15 0)).folds 0 = 1 :=
  (spec_C10 1 (List.replicate 15 0) 0 (by decide)).1
